import Mathlib

/-!
# Owl special functions: `owl_maths_special_impl.c`

A shallow embedding of the scalar special functions of Owl and of its two
modular-arithmetic routines `mulmod` and `powmod`.

* `int64_t` values are integers of `Int`; every addition, subtraction and
  multiplication of the source is followed by `wrap64`, the two's complement
  reduction to the signed 64-bit range. `%` and `/` of C truncate towards
  zero (`Int.tmod`, `Int.tdiv`), `b & 1` is `Int.land b 1` and `b >> 1` is the
  arithmetic shift `b >>> 1`.
* A `while` loop is a function with a fuel argument, the number of passes it
  may make; it returns `none` when the fuel is spent before the loop
  condition fails.
* The `double` functions are parameterised by the library primitives they
  call (`exp`, `log`, `log1p`, `expm1`, `sin`, `sqrt`, `ndtri`, the NaN test)
  and by the arithmetic of their carrier type; statements in exact arithmetic
  instantiate the carrier with the real numbers.
-/

namespace Owl

/-! ## Signed 64-bit integers -/

/-- The largest `int64_t`, `2^63 - 1`. -/
def INT64_MAX : Int := 9223372036854775807

/-- The smallest `int64_t`, `-2^63`. -/
def INT64_MIN : Int := -9223372036854775808

/-- Two's complement reduction of an integer to the signed 64-bit range. -/
def wrap64 (x : Int) : Int :=
  (x + 9223372036854775808) % 18446744073709551616 - 9223372036854775808

/-- The overflow test of `mulmod`: `b < INT64_MAX / a`. -/
def fastPathCheck (a b : Int) : Bool :=
  decide (b < Int.tdiv INT64_MAX a)

/-- The statement `if (b & 1) { if (m - r > a) r += a; else r += a - m; }`
of the slow path of `mulmod`: the new value of `r`. -/
def addStep (a b m r : Int) : Int :=
  if Int.land b 1 ≠ 0 then
    if wrap64 (m - r) > a then wrap64 (r + a) else wrap64 (r + wrap64 (a - m))
  else r

/-- The statement `if (m - a > a) a += a; else a += a - m;` of the slow path
of `mulmod`: the new value of `a`. -/
def doubleStep (a m : Int) : Int :=
  if wrap64 (m - a) > a then wrap64 (a + a) else wrap64 (a + wrap64 (a - m))

/-- The loop `while (b) { ... b >>= 1; }` of `mulmod`, on the state
`(a, b, r)`. -/
def mulmodLoop : Nat → Int → Int → Int → Int → Option Int
  | 0, _, b, _, r => if b = 0 then some r else none
  | fuel + 1, a, b, m, r =>
    if b = 0 then some r
    else mulmodLoop fuel (doubleStep a m) (b >>> (1 : Nat)) m (addStep a b m r)

/-- The function `mulmod(a, b, m)`. -/
def mulmod (fuel : Nat) (a b m : Int) : Option Int :=
  let a := if a ≥ m then Int.tmod a m else a
  let b := if b ≥ m then Int.tmod b m else b
  if a = 0 ∨ b = 0 then some 0
  else if fastPathCheck a b then
    let c := wrap64 (a * b)
    some (if c < m then c else Int.tmod c m)
  else mulmodLoop fuel a b m 0

/-- The loop `while (b) { ... }` of `powmod`, on the state `(a, b, r)`; the
calls of `mulmod` inside run with fuel `mfuel`. -/
def powmodLoop (mfuel : Nat) : Nat → Int → Int → Int → Int → Option Int
  | 0, _, b, _, r => if b = 0 then some r else none
  | fuel + 1, a, b, m, r =>
    if b = 0 then some r
    else
      (if Int.land b 1 ≠ 0 then mulmod mfuel r a m else some r).bind fun r1 =>
        let b1 := b >>> (1 : Nat)
        (if b1 ≠ 0 then mulmod mfuel a a m else some a).bind fun a1 =>
          powmodLoop mfuel fuel a1 b1 m r1

/-- The function `powmod(a, b, m)`. -/
def powmod (fuel : Nat) (a b m : Int) : Option Int :=
  if m = 1 ∧ b = 0 then some 0
  else
    let a := if a ≥ m then Int.tmod a m else a
    powmodLoop fuel fuel a b m 1

/-- The naive exponentiation by `mulmod`: from `r`, the assignment
`r := mulmod(r, a, m)` made `n` times. -/
def mulmodIter (fuel : Nat) (a m : Int) : Nat → Int → Option Int
  | 0, r => some r
  | n + 1, r => (mulmod fuel r a m).bind fun r1 => mulmodIter fuel a m n r1

/-- The state `(a, b, r)` of the slow path of `mulmod` after `k` passes of its
loop, or at the end of the loop when it ends sooner. -/
def slowState (m : Int) : Nat → Int → Int → Int → Int × Int × Int
  | 0, a, b, r => (a, b, r)
  | k + 1, a, b, r =>
    if b = 0 then (a, b, r)
    else slowState m k (doubleStep a m) (b >>> (1 : Nat)) (addStep a b m r)

/-- The exact values, before their reduction to 64 bits, of the additions and
subtractions that one pass of the slow path performs from the state
`(a, b, r)`: `m - r` and then `r + a` or `a - m`, `r + (a - m)` when `b & 1` is
set; `m - a` and then `a + a` or `a - m`, `a + (a - m)`. -/
def slowOps (a b m r : Int) : List Int :=
  (if Int.land b 1 ≠ 0 then
    (m - r) :: (if wrap64 (m - r) > a then [r + a] else [a - m, r + wrap64 (a - m)])
  else []) ++
    ((m - a) :: (if wrap64 (m - a) > a then [a + a] else [a - m, a + wrap64 (a - m)]))

/-! ## Double-precision functions

The carrier `D` stands for `double`. Its arithmetic and its comparison `==`
are the operations of the instances in scope, of which no law is assumed, and
the library functions are arguments. -/

/-- The function `xlogy(x, y)`. -/
def xlogy {D : Type} [BEq D] [Zero D] [Mul D] (owl_isnan : D → Bool) (log : D → D)
    (x y : D) : D :=
  if (x == 0 && !owl_isnan y) = true then 0 else x * log y

/-- The function `xlog1py(x, y)`. -/
def xlog1py {D : Type} [BEq D] [Zero D] [Mul D] (owl_isnan : D → Bool) (log1p : D → D)
    (x y : D) : D :=
  if (x == 0 && !owl_isnan y) = true then 0 else x * log1p y

/-- The function `expit(x)`. -/
def expit {D : Type} [One D] [Add D] [Neg D] [Div D] (exp : D → D) (x : D) : D :=
  1 / (1 + exp (-x))

/-- The function `logit(x)`. -/
def logit {D : Type} [One D] [Sub D] [Div D] (log : D → D) (x : D) : D :=
  log (x / (1 - x))

/-- The function `sinc(x)`. -/
def sinc {D : Type} [BEq D] [Zero D] [One D] [Div D] (sin : D → D) (x : D) : D :=
  if (x == 0) = true then 1 else sin x / x

/-- The function `log1mexp(x)`; the constant `OWL_LOGE2` of the header is an
argument. -/
def log1mexp {D : Type} [Neg D] [LT D] [DecidableRel (fun a b : D => a < b)]
    (OWL_LOGE2 : D) (exp log log1p expm1 : D → D) (x : D) : D :=
  if -x > OWL_LOGE2 then log1p (-exp x) else log (-expm1 x)

/-- The function `log1pexp(x)`. -/
def log1pexp {D : Type} [Neg D] [Add D] [LE D] [DecidableRel (fun a b : D => a ≤ b)]
    [OfScientific D] (exp log1p : D → D) (x : D) : D :=
  if x ≤ -37.0 then exp x
  else if x ≤ 18.0 then log1p (exp x)
  else if x ≤ 33.3 then x + exp (-x)
  else x

/-- The function `erfinv(x)`. -/
def erfinv {D : Type} [One D] [Add D] [Div D] [OfNat D 2] (ndtri sqrt : D → D) (x : D) : D :=
  ndtri ((x + 1) / 2) / sqrt 2

/-- The function `erfcinv(x)`. -/
def erfcinv {D : Type} [Neg D] [Mul D] [Div D] [OfScientific D] [OfNat D 2]
    (ndtri sqrt : D → D) (x : D) : D :=
  -ndtri (0.5 * x) / sqrt 2

/-- The distribution function of the standard normal distribution. -/
noncomputable def stdNormalCDF (x : ℝ) : ℝ :=
  ProbabilityTheory.cdf (ProbabilityTheory.gaussianReal 0 1) x

/-- Modelled from the spec: `ndtri`, the inverse normal CDF that `erfinv` and
`erfcinv` call and that is not among the sources. The spec gives it as the
quantile function of the standard normal distribution: the inverse of the
distribution function. -/
noncomputable def ndtri (p : ℝ) : ℝ :=
  Function.invFun stdNormalCDF p

/-! ## Machine arithmetic -/

theorem wrap64_of_inRange (x : Int) (h1 : INT64_MIN ≤ x) (h2 : x ≤ INT64_MAX) :
    wrap64 x = x := by
  unfold INT64_MIN at h1
  unfold INT64_MAX at h2
  unfold wrap64
  omega

theorem ldiff_one (m : Nat) : Nat.ldiff 1 m = 1 - m % 2 := by
  apply Nat.eq_of_testBit_eq
  intro i
  rw [Nat.testBit_ldiff]
  rcases Nat.mod_two_eq_zero_or_one m with h | h
  · rw [h]
    cases i with
    | zero => simp [Nat.testBit_zero, h]
    | succ k => simp [Nat.testBit_succ]
  · rw [h]
    cases i with
    | zero => simp [Nat.testBit_zero, h]
    | succ k => simp [Nat.testBit_succ]

/-- In two's complement `b & 1` is the parity of `b`, also for negative `b`. -/
theorem land_one (b : Int) : Int.land b 1 = b % 2 := by
  cases b with
  | ofNat n =>
    show ((n &&& 1 : Nat) : Int) = (n : Int) % 2
    rw [Nat.and_one_is_mod]
    rfl
  | negSucc m =>
    show ((Nat.ldiff 1 m : Nat) : Int) = Int.negSucc m % 2
    rw [ldiff_one, Int.negSucc_eq]
    omega

theorem shiftRight_one (b : Int) : b >>> (1 : Nat) = b / 2 := by
  rw [Int.shiftRight_eq_div_pow]
  rfl

theorem tmod_reduce (a m : Int) (ha : 0 ≤ a) (hm : 0 < m) :
    (if a ≥ m then Int.tmod a m else a) = a % m := by
  split
  · exact Int.tmod_eq_emod ha (le_of_lt hm)
  · rename_i h
    exact (Int.emod_eq_of_lt ha (not_le.mp h)).symm

/-- The overflow test is sound: a product that passes it fits in 64 bits. -/
theorem fastPathCheck_sound (a b : Int) (ha : 0 < a)
    (h : fastPathCheck a b = true) : a * b ≤ INT64_MAX - a := by
  unfold fastPathCheck at h
  have h1 : b < INT64_MAX / a := by
    have := of_decide_eq_true h
    rwa [Int.tdiv_eq_ediv (by decide) (le_of_lt ha)] at this
  have h2 : a * (b + 1) ≤ a * (INT64_MAX / a) :=
    Int.mul_le_mul_of_nonneg_left (by omega) (le_of_lt ha)
  have h3 : a * (INT64_MAX / a) ≤ INT64_MAX := Int.mul_ediv_self_le (ne_of_gt ha)
  have h4 : a * (b + 1) = a * b + a := by ring
  omega

/-! ## The slow path of `mulmod` -/

/-- On reduced operands the guarded addition is addition modulo `m`. -/
theorem addStep_eq (a b m r : Int) (hm : m ≤ INT64_MAX) (ha0 : 0 ≤ a) (ha : a < m)
    (hr0 : 0 ≤ r) (hr : r < m) :
    addStep a b m r = (r + b % 2 * a) % m := by
  unfold INT64_MAX at hm
  have e1 : wrap64 (m - r) = m - r :=
    wrap64_of_inRange _ (by unfold INT64_MIN; omega) (by unfold INT64_MAX; omega)
  have e2 : wrap64 (a - m) = a - m :=
    wrap64_of_inRange _ (by unfold INT64_MIN; omega) (by unfold INT64_MAX; omega)
  unfold addStep
  rw [land_one b, e1, e2]
  rcases Int.emod_two_eq b with h | h
  · simp only [h, ne_eq, not_true_eq_false, if_false, zero_mul, add_zero]
    exact (Int.emod_eq_of_lt hr0 hr).symm
  · simp only [h, ne_eq, one_ne_zero, not_false_eq_true, if_true, one_mul]
    split
    · rw [wrap64_of_inRange _ (by unfold INT64_MIN; omega) (by unfold INT64_MAX; omega)]
      exact (Int.emod_eq_of_lt (by omega) (by omega)).symm
    · rw [wrap64_of_inRange _ (by unfold INT64_MIN; omega) (by unfold INT64_MAX; omega)]
      have : (r + a) % m = (r + (a - m)) % m := by
        have : r + a = r + (a - m) + m := by ring
        rw [this, Int.add_emod_self]
      rw [this]
      exact (Int.emod_eq_of_lt (by omega) (by omega)).symm

/-- On a reduced operand the guarded doubling is doubling modulo `m`. -/
theorem doubleStep_eq (a m : Int) (hm : m ≤ INT64_MAX) (ha0 : 0 ≤ a) (ha : a < m) :
    doubleStep a m = (a + a) % m := by
  unfold INT64_MAX at hm
  have e1 : wrap64 (m - a) = m - a :=
    wrap64_of_inRange _ (by unfold INT64_MIN; omega) (by unfold INT64_MAX; omega)
  have e2 : wrap64 (a - m) = a - m :=
    wrap64_of_inRange _ (by unfold INT64_MIN; omega) (by unfold INT64_MAX; omega)
  unfold doubleStep
  rw [e1, e2]
  split
  · rw [wrap64_of_inRange _ (by unfold INT64_MIN; omega) (by unfold INT64_MAX; omega)]
    exact (Int.emod_eq_of_lt (by omega) (by omega)).symm
  · rw [wrap64_of_inRange _ (by unfold INT64_MIN; omega) (by unfold INT64_MAX; omega)]
    have : (a + a) % m = (a + (a - m)) % m := by
      have : a + a = a + (a - m) + m := by ring
      rw [this, Int.add_emod_self]
    rw [this]
    exact (Int.emod_eq_of_lt (by omega) (by omega)).symm

/-- One pass of the loop keeps `r + a * b` fixed modulo `m`. -/
theorem slow_step_modEq (a b m r : Int) :
    ((r + b % 2 * a) % m + (a + a) % m * (b / 2)) % m = (r + a * b) % m := by
  have h1 : (r + b % 2 * a) % m ≡ r + b % 2 * a [ZMOD m] := Int.mod_modEq _ _
  have h2 : (a + a) % m ≡ a + a [ZMOD m] := Int.mod_modEq _ _
  have h3 := Int.ModEq.add h1 (Int.ModEq.mul_right (b / 2) h2)
  have h4 : r + b % 2 * a + (a + a) * (b / 2) = r + a * b := by
    have := Int.emod_add_ediv b 2
    calc r + b % 2 * a + (a + a) * (b / 2) = r + a * (b % 2 + 2 * (b / 2)) := by ring
      _ = r + a * b := by rw [this]
  rw [h4] at h3
  exact h3

/-- The double-and-add loop returns `(r + a * b) mod m` within `fuel` passes
when `b < 2 ^ fuel`. -/
theorem mulmodLoop_eq (m : Int) (hm0 : 0 < m) (hm : m ≤ INT64_MAX) :
    ∀ (fuel : Nat) (a b r : Int), 0 ≤ a → a < m → 0 ≤ r → r < m → 0 ≤ b →
      b < 2 ^ fuel → mulmodLoop fuel a b m r = some ((r + a * b) % m) := by
  intro fuel
  induction fuel with
  | zero =>
    intro a b r _ _ hr0 hr hb0 hb
    have hb : b = 0 := by simp at hb; omega
    subst hb
    simp [mulmodLoop, Int.emod_eq_of_lt hr0 hr]
  | succ n ih =>
    intro a b r ha0 ha hr0 hr hb0 hb
    unfold mulmodLoop
    by_cases hbz : b = 0
    · subst hbz
      simp [Int.emod_eq_of_lt hr0 hr]
    · rw [if_neg hbz, shiftRight_one, addStep_eq a b m r hm ha0 ha hr0 hr,
        doubleStep_eq a m hm ha0 ha]
      have hpow : (2 : Int) ^ (n + 1) = 2 * 2 ^ n := by ring
      rw [hpow] at hb
      rw [ih _ _ _ (Int.emod_nonneg _ (ne_of_gt hm0)) (Int.emod_lt_of_pos _ hm0)
        (Int.emod_nonneg _ (ne_of_gt hm0)) (Int.emod_lt_of_pos _ hm0) (by omega) (by omega),
        slow_step_modEq]

/-! ## `mulmod` and `powmod` against exact arithmetic -/

theorem two_pow_63_le (fuel : Nat) (h : 63 ≤ fuel) :
    (9223372036854775808 : Int) ≤ 2 ^ fuel := by
  have h1 : (2 : Int) ^ 63 ≤ 2 ^ fuel := pow_le_pow_right₀ (by norm_num) h
  have h2 : (2 : Int) ^ 63 = 9223372036854775808 := by norm_num
  omega

/-- With 63 passes allowed, `mulmod` returns the exact residue of the
product. -/
theorem mulmod_eq (fuel : Nat) (a b m : Int) (hfuel : 63 ≤ fuel) (hm0 : 0 < m)
    (hm : m ≤ INT64_MAX) (ha : 0 ≤ a) (hb : 0 ≤ b) :
    mulmod fuel a b m = some (a * b % m) := by
  have hmne : m ≠ 0 := ne_of_gt hm0
  have ha0 : 0 ≤ a % m := Int.emod_nonneg _ hmne
  have ha1 : a % m < m := Int.emod_lt_of_pos _ hm0
  have hb0 : 0 ≤ b % m := Int.emod_nonneg _ hmne
  have hb1 : b % m < m := Int.emod_lt_of_pos _ hm0
  have hab : a * b % m = (a % m) * (b % m) % m := Int.mul_emod a b m
  unfold mulmod
  simp only [tmod_reduce a m ha hm0, tmod_reduce b m hb hm0]
  by_cases hz : a % m = 0 ∨ b % m = 0
  · rw [if_pos hz, hab]
    rcases hz with h | h <;> simp [h]
  · rw [if_neg hz]
    have hapos : 0 < a % m := by
      rcases lt_or_eq_of_le ha0 with h | h
      · exact h
      · exact absurd (Or.inl h.symm) hz
    have hbpos : 0 < b % m := by
      rcases lt_or_eq_of_le hb0 with h | h
      · exact h
      · exact absurd (Or.inr h.symm) hz
    by_cases hf : fastPathCheck (a % m) (b % m) = true
    · rw [if_pos hf]
      have hs := fastPathCheck_sound _ _ hapos hf
      have hc0 : 0 ≤ a % m * (b % m) := Int.mul_nonneg ha0 hb0
      rw [wrap64_of_inRange _ (by unfold INT64_MIN; omega) (by omega), hab]
      split
      · rename_i hlt
        rw [Int.emod_eq_of_lt hc0 hlt]
      · rw [Int.tmod_eq_emod hc0 (le_of_lt hm0)]
    · rw [if_neg hf, mulmodLoop_eq m hm0 hm fuel _ _ 0 ha0 ha1 (le_refl 0) hm0 hb0
        (by have := two_pow_63_le fuel hfuel; unfold INT64_MAX at hm; omega), zero_add, hab]

/-- One pass of square-and-multiply keeps `r * a ^ b` fixed modulo `m`. -/
theorem pow_step_modEq (a b m r : Int) (hb : 0 ≤ b) :
    ((if b % 2 ≠ 0 then r * a % m else r) * (a * a % m) ^ (b / 2).toNat) % m
      = (r * a ^ b.toNat) % m := by
  have hsq : (a * a % m) ^ (b / 2).toNat ≡ a ^ (2 * (b / 2).toNat) [ZMOD m] := by
    have h := Int.ModEq.pow (b / 2).toNat (Int.mod_modEq (a * a) m)
    have e : (a * a) ^ (b / 2).toNat = a ^ (2 * (b / 2).toNat) := by
      rw [pow_mul, pow_two]
    rwa [e] at h
  rcases Int.emod_two_eq b with h | h
  · have hk : b.toNat = 2 * (b / 2).toNat := by omega
    simp only [h, ne_eq, not_true_eq_false, if_false]
    rw [hk]
    exact Int.ModEq.mul_left r hsq
  · have hk : b.toNat = 2 * (b / 2).toNat + 1 := by omega
    simp only [h, ne_eq, one_ne_zero, not_false_eq_true, if_true]
    rw [hk, pow_succ, ← mul_assoc, mul_right_comm]
    exact Int.ModEq.mul (Int.mod_modEq (r * a) m) hsq

/-- The square-and-multiply loop returns `r * a ^ b mod m` within `fuel`
passes when `b < 2 ^ fuel`. -/
theorem powmodLoop_eq (mfuel : Nat) (m : Int) (hmfuel : 63 ≤ mfuel) (hm0 : 0 < m)
    (hm : m ≤ INT64_MAX) :
    ∀ (fuel : Nat) (a b r : Int), 0 ≤ a → 0 ≤ r → 0 ≤ b → b < 2 ^ fuel →
      (b = 0 → r < m) → powmodLoop mfuel fuel a b m r = some (r * a ^ b.toNat % m) := by
  intro fuel
  induction fuel with
  | zero =>
    intro a b r _ hr0 hb0 hb hr
    have hb : b = 0 := by simp at hb; omega
    subst hb
    simp [powmodLoop, Int.emod_eq_of_lt hr0 (hr rfl)]
  | succ n ih =>
    intro a b r ha0 hr0 hb0 hb hr
    unfold powmodLoop
    by_cases hbz : b = 0
    · subst hbz
      simp [Int.emod_eq_of_lt hr0 (hr rfl)]
    · have hmne : m ≠ 0 := ne_of_gt hm0
      have hpow : (2 : Int) ^ (n + 1) = 2 * 2 ^ n := by ring
      rw [hpow] at hb
      rw [if_neg hbz, land_one b, shiftRight_one]
      have e1 : (if b % 2 ≠ 0 then mulmod mfuel r a m else some r)
          = some (if b % 2 ≠ 0 then r * a % m else r) := by
        split
        · exact mulmod_eq mfuel r a m hmfuel hm0 hm hr0 ha0
        · rfl
      have e2 : (if b / 2 ≠ 0 then mulmod mfuel a a m else some a)
          = some (if b / 2 ≠ 0 then a * a % m else a) := by
        split
        · exact mulmod_eq mfuel a a m hmfuel hm0 hm ha0 ha0
        · rfl
      rw [e1, Option.some_bind]
      simp only []
      rw [e2, Option.some_bind]
      have hr1 : 0 ≤ (if b % 2 ≠ 0 then r * a % m else r) := by
        split
        · exact Int.emod_nonneg _ hmne
        · exact hr0
      have ha1 : 0 ≤ (if b / 2 ≠ 0 then a * a % m else a) := by
        split
        · exact Int.emod_nonneg _ hmne
        · exact ha0
      have hlt : b / 2 = 0 → (if b % 2 ≠ 0 then r * a % m else r) < m := by
        intro h
        have : b % 2 ≠ 0 := by omega
        rw [if_pos this]
        exact Int.emod_lt_of_pos _ hm0
      rw [ih _ _ _ ha1 hr1 (by omega) (by omega) hlt]
      have e3 : (if b / 2 ≠ 0 then a * a % m else a) ^ (b / 2).toNat
          = (a * a % m) ^ (b / 2).toNat := by
        split
        · rfl
        · rename_i h
          have : b / 2 = 0 := not_not.mp h
          rw [this]
          rfl
      rw [e3, pow_step_modEq a b m r hb0]

/-- With 63 passes allowed in each loop, `powmod` returns the exact residue
of the power. -/
theorem powmod_eq (fuel : Nat) (a b m : Int) (hfuel : 63 ≤ fuel) (hm0 : 0 < m)
    (hm : m ≤ INT64_MAX) (ha : 0 ≤ a) (hb0 : 0 ≤ b) (hb : b ≤ INT64_MAX) :
    powmod fuel a b m = some (a ^ b.toNat % m) := by
  unfold powmod
  by_cases h : m = 1 ∧ b = 0
  · rw [if_pos h, h.1, Int.emod_one]
  · rw [if_neg h]
    simp only [tmod_reduce a m ha hm0]
    rw [powmodLoop_eq fuel m hfuel hm0 hm fuel (a % m) b 1 (Int.emod_nonneg _ (ne_of_gt hm0))
      (by decide) hb0 (by have := two_pow_63_le fuel hfuel; unfold INT64_MAX at hb; omega)
      (by intro hb; omega), one_mul]
    exact congrArg some (Int.ModEq.pow b.toNat (Int.mod_modEq a m))

/-- The naive exponentiation returns `r`, or `r * a ^ n mod m` after at least
one multiplication. -/
theorem mulmodIter_eq (fuel : Nat) (a m : Int) (hfuel : 63 ≤ fuel) (hm0 : 0 < m)
    (hm : m ≤ INT64_MAX) (ha : 0 ≤ a) :
    ∀ (n : Nat) (r : Int), 0 ≤ r →
      mulmodIter fuel a m n r = some (if n = 0 then r else r * a ^ n % m) := by
  intro n
  induction n with
  | zero => intro r _; rfl
  | succ k ih =>
    intro r hr
    unfold mulmodIter
    rw [mulmod_eq fuel r a m hfuel hm0 hm hr ha, Option.some_bind,
      ih _ (Int.emod_nonneg _ (ne_of_gt hm0)), if_neg (Nat.succ_ne_zero k)]
    congr 1
    by_cases hk : k = 0
    · subst hk
      simp
    · rw [if_neg hk]
      have h : r * a % m * a ^ k ≡ r * a * a ^ k [ZMOD m] :=
        Int.ModEq.mul_right _ (Int.mod_modEq _ _)
      have e : r * a * a ^ k = r * a ^ (k + 1) := by ring
      rw [e] at h
      exact h

/-! ## Loops that never end -/

/-- Once `b` is `-1` the shift leaves it there: the loop of `mulmod` never
stops. -/
theorem mulmodLoop_neg_one (m : Int) :
    ∀ (fuel : Nat) (a r : Int), mulmodLoop fuel a (-1) m r = none := by
  intro fuel
  induction fuel with
  | zero => intro a r; rfl
  | succ n ih =>
    intro a r
    unfold mulmodLoop
    rw [if_neg (by decide)]
    exact ih _ _

/-- The loop of `powmod` never stops from `a = 0`, `b = -1`, `r = 0` with
modulus 1. -/
theorem powmodLoop_neg_one (mfuel : Nat) :
    ∀ (fuel : Nat), powmodLoop mfuel fuel 0 (-1) 1 0 = none := by
  intro fuel
  induction fuel with
  | zero => rfl
  | succ n ih =>
    unfold powmodLoop
    have e : mulmod mfuel 0 0 1 = some 0 := by simp [mulmod]
    have l : Int.land (-1) 1 ≠ 0 := by rw [land_one]; decide
    have s : (-1 : Int) >>> (1 : Nat) = -1 := by decide
    rw [if_neg (by decide), if_pos l, e, Option.some_bind]
    simp only [s]
    rw [if_pos (by decide), Option.some_bind]
    exact ih

theorem mulmod_one_left (fuel : Nat) (b : Int) : mulmod fuel 1 b 1 = some 0 := by
  simp [mulmod]

/-! ## Modular arithmetic: the contract -/

/-- C1: for `m > 0` in the signed 64-bit range and `a, b ≥ 0`, `mulmod(a, b, m)`
returns, and returns the residue `(a * b) mod m` of the product taken over the
unbounded integers, on the fast path and on the double-and-add path alike. -/
theorem mulmod_exact (a b m : Int) (hm0 : 0 < m) (hm : m ≤ INT64_MAX) (ha : 0 ≤ a)
    (hb : 0 ≤ b) (fuel : Nat) (hfuel : 63 ≤ fuel) :
    mulmod fuel a b m = some (a * b % m) :=
  mulmod_eq fuel a b m hfuel hm0 hm ha hb

theorem mulmod_exact_witness :
    (0 : Int) < 1000000007 ∧ (1000000007 : Int) ≤ INT64_MAX ∧ (0 : Int) ≤ 3000000000 ∧
      63 ≤ 63 ∧ mulmod 63 3000000000 3000000000 1000000007 = some 441 :=
  ⟨by decide, by decide, by decide, by decide,
    (mulmod_exact 3000000000 3000000000 1000000007 (by decide) (by decide) (by decide)
      (by decide) 63 (by decide)).trans (by decide)⟩

/-- C2: for `m > 0` in the signed 64-bit range, `a ≥ 0` and `0 ≤ b ≤ INT64_MAX`,
`powmod(a, b, m)` returns, and returns `a ^ b mod m` taken over the unbounded
integers (so `1 mod m` when `b = 0`). -/
theorem powmod_exact (a b m : Int) (hm0 : 0 < m) (hm : m ≤ INT64_MAX) (ha : 0 ≤ a)
    (hb0 : 0 ≤ b) (hb : b ≤ INT64_MAX) (fuel : Nat) (hfuel : 63 ≤ fuel) :
    powmod fuel a b m = some (a ^ b.toNat % m) :=
  powmod_eq fuel a b m hfuel hm0 hm ha hb0 hb

theorem powmod_exact_witness :
    (0 : Int) < 1000 ∧ (1000 : Int) ≤ INT64_MAX ∧ (0 : Int) ≤ 2 ∧ (0 : Int) ≤ 10 ∧
      (10 : Int) ≤ INT64_MAX ∧ 63 ≤ 63 ∧ powmod 63 2 10 1000 = some 24 :=
  ⟨by decide, by decide, by decide, by decide, by decide, by decide,
    (powmod_exact 2 10 1000 (by decide) (by decide) (by decide) (by decide) (by decide)
      63 (by decide)).trans (by decide)⟩

/-- C3: the overflow test of `mulmod` is never unsafe: for `a > 0` and `b ≥ 0`,
when `b < INT64_MAX / a` holds the exact product `a * b` is at most
`INT64_MAX`, so the 64-bit multiplication of the fast path yields it
unchanged. -/
theorem fastPath_no_overflow (a b : Int) (ha : 0 < a) (hb : 0 ≤ b)
    (h : fastPathCheck a b = true) :
    a * b ≤ INT64_MAX ∧ wrap64 (a * b) = a * b := by
  have hs := fastPathCheck_sound a b ha h
  have h0 : 0 ≤ a * b := Int.mul_nonneg (le_of_lt ha) hb
  exact ⟨by omega, wrap64_of_inRange _ (by unfold INT64_MIN; omega) (by omega)⟩

theorem fastPath_no_overflow_witness :
    (0 : Int) < 3037000499 ∧ (0 : Int) ≤ 3037000499 ∧
      fastPathCheck 3037000499 3037000499 = true ∧
      (3037000499 : Int) * 3037000499 ≤ INT64_MAX ∧
      wrap64 (3037000499 * 3037000499) = 3037000499 * 3037000499 :=
  ⟨by decide, by decide, by decide,
    fastPath_no_overflow 3037000499 3037000499 (by decide) (by decide) (by decide)⟩

/-- C4, as stated, fails: `powmod(0, -1, 1)` and `powmod(-1, 2, 1)` never
return. In the first the exponent stays `-1` under `b >>= 1`; in the second
the squaring `mulmod(-1, -1, 1)` enters the slow path with `b = -1`. -/
theorem powmod_mod_one_diverges :
    (¬ ∃ (fuel : Nat) (r : Int), powmod fuel 0 (-1) 1 = some r) ∧
      (¬ ∃ (fuel : Nat) (r : Int), powmod fuel (-1) 2 1 = some r) := by
  constructor
  · rintro ⟨fuel, r, h⟩
    have hp : powmod fuel 0 (-1) 1 = none := by
      unfold powmod
      rw [if_neg (by decide)]
      simp only [ge_iff_le, if_neg (show ¬ ((1 : Int) ≤ 0) by decide)]
      cases fuel with
      | zero => rfl
      | succ n =>
        unfold powmodLoop
        have l : Int.land (-1) 1 ≠ 0 := by rw [land_one]; decide
        have s : (-1 : Int) >>> (1 : Nat) = -1 := by decide
        rw [if_neg (by decide), if_pos l, mulmod_one_left, Option.some_bind]
        simp only [s]
        have e : mulmod (n + 1) 0 0 1 = some 0 := by simp [mulmod]
        rw [if_pos (by decide), e, Option.some_bind]
        exact powmodLoop_neg_one (n + 1) n
    rw [hp] at h
    exact Option.noConfusion h
  · rintro ⟨fuel, r, h⟩
    have hp : powmod fuel (-1) 2 1 = none := by
      unfold powmod
      rw [if_neg (by decide)]
      simp only [ge_iff_le, if_neg (show ¬ ((1 : Int) ≤ -1) by decide)]
      cases fuel with
      | zero => rfl
      | succ n =>
        unfold powmodLoop
        have l : ¬ Int.land 2 1 ≠ 0 := by rw [land_one]; decide
        have s : (2 : Int) >>> (1 : Nat) = 1 := by decide
        have e : mulmod (n + 1) (-1) (-1) 1 = none := by
          unfold mulmod
          simp only [ge_iff_le, if_neg (show ¬ ((1 : Int) ≤ -1) by decide)]
          rw [if_neg (by decide), if_neg (by decide)]
          exact mulmodLoop_neg_one 1 (n + 1) (-1) 0
        rw [if_neg (by decide), if_neg l, Option.some_bind]
        simp only [s]
        rw [if_pos (by decide), e]
        rfl
    rw [hp] at h
    exact Option.noConfusion h

/-- C4, amended: `powmod(a, b, 1)` returns 0 for every exponent
`0 ≤ b ≤ INT64_MAX` and every `a` that is non-negative or meets an exponent of
at most 1. -/
theorem powmod_mod_one (a b : Int) (hb0 : 0 ≤ b) (hb : b ≤ INT64_MAX)
    (h : 0 ≤ a ∨ b ≤ 1) (fuel : Nat) (hfuel : 63 ≤ fuel) :
    powmod fuel a b 1 = some 0 := by
  by_cases ha : 0 ≤ a
  · rw [powmod_eq fuel a b 1 hfuel (by decide) (by decide) ha hb0 hb, Int.emod_one]
  · have hb1 : b ≤ 1 := h.resolve_left ha
    unfold powmod
    by_cases hz : b = 0
    · rw [if_pos ⟨rfl, hz⟩]
    · have hone : b = 1 := by omega
      subst hone
      rw [if_neg (by decide)]
      simp only [ge_iff_le, if_neg (show ¬ ((1 : Int) ≤ a) by omega)]
      obtain ⟨n, rfl⟩ : ∃ n, fuel = n + 1 := ⟨fuel - 1, by omega⟩
      unfold powmodLoop
      have l : Int.land 1 1 ≠ 0 := by rw [land_one]; decide
      have s : (1 : Int) >>> (1 : Nat) = 0 := by decide
      rw [if_neg (by decide), if_pos l, mulmod_one_left, Option.some_bind]
      simp only [s]
      rw [if_neg (by decide), Option.some_bind]
      cases n <;> simp [powmodLoop]

theorem powmod_mod_one_witness :
    (0 : Int) ≤ 5 ∧ (5 : Int) ≤ INT64_MAX ∧ ((0 : Int) ≤ 7 ∨ (5 : Int) ≤ 1) ∧ 63 ≤ 63 ∧
      powmod 63 7 5 1 = some 0 :=
  ⟨by decide, by decide, Or.inl (by decide), by decide,
    powmod_mod_one 7 5 (by decide) (by decide) (Or.inl (by decide)) 63 (by decide)⟩

/-- C5: `powmod(a, 0, m)` returns 1 for every `a` and every modulus `m > 1`. -/
theorem powmod_zero_exponent (a m : Int) (hm : 1 < m) (fuel : Nat) :
    powmod fuel a 0 m = some 1 := by
  unfold powmod
  rw [if_neg (by omega)]
  cases fuel <;> simp [powmodLoop]

theorem powmod_zero_exponent_witness :
    (1 : Int) < 7 ∧ powmod 0 (-3) 0 7 = some 1 :=
  ⟨by decide, powmod_zero_exponent (-3) 7 (by decide) 0⟩

/-- C6, as stated, fails at `m = 1`, `b = 0`: `powmod(2, 0, 1)` returns 0 and
zero applications of `mulmod` leave `r = 1`. -/
theorem powmod_ne_mulmodIter :
    ¬ ∃ fuel : Nat, powmod fuel 2 0 1 = mulmodIter fuel 2 1 (Int.toNat 0) 1 := by
  rintro ⟨fuel, h⟩
  have h1 : powmod fuel 2 0 1 = some 0 := by simp [powmod]
  have h2 : mulmodIter fuel 2 1 (Int.toNat 0) 1 = some 1 := rfl
  rw [h1, h2] at h
  exact absurd (Option.some.inj h) (by decide)

/-- C6, amended: for `a ≥ 0`, `0 ≤ b ≤ INT64_MAX` and `0 < m ≤ INT64_MAX`, unless
`m = 1` and `b = 0`, `powmod(a, b, m)` returns the value reached from `r = 1`
by `b` assignments `r := mulmod(r, a, m)`. -/
theorem powmod_eq_mulmodIter (a b m : Int) (hm0 : 0 < m) (hm : m ≤ INT64_MAX)
    (ha : 0 ≤ a) (hb0 : 0 ≤ b) (hb : b ≤ INT64_MAX) (h : m ≠ 1 ∨ b ≠ 0)
    (fuel : Nat) (hfuel : 63 ≤ fuel) :
    ∃ v : Int, powmod fuel a b m = some v ∧ mulmodIter fuel a m b.toNat 1 = some v := by
  refine ⟨a ^ b.toNat % m, powmod_eq fuel a b m hfuel hm0 hm ha hb0 hb, ?_⟩
  rw [mulmodIter_eq fuel a m hfuel hm0 hm ha b.toNat 1 (by decide)]
  by_cases hz : b.toNat = 0
  · have hbz : b = 0 := by omega
    have hm1 : 1 < m := by
      rcases h with h | h
      · omega
      · exact absurd hbz h
    rw [if_pos hz, hz, pow_zero, Int.emod_eq_of_lt (by decide) hm1]
  · rw [if_neg hz, one_mul]

theorem powmod_eq_mulmodIter_witness :
    (0 : Int) < 1000 ∧ (1000 : Int) ≤ INT64_MAX ∧ (0 : Int) ≤ 2 ∧ (0 : Int) ≤ 10 ∧
      (10 : Int) ≤ INT64_MAX ∧ ((1000 : Int) ≠ 1 ∨ (10 : Int) ≠ 0) ∧ 63 ≤ 63 ∧
      ∃ v : Int, powmod 63 2 10 1000 = some v ∧
        mulmodIter 63 2 1000 (Int.toNat 10) 1 = some v :=
  ⟨by decide, by decide, by decide, by decide, by decide, Or.inl (by decide), by decide,
    powmod_eq_mulmodIter 2 10 1000 (by decide) (by decide) (by decide) (by decide)
      (by decide) (Or.inl (by decide)) 63 (by decide)⟩

/-! ## Double-precision functions: the contract -/

/-- C7: when `x == 0` holds and `y` is not NaN, `xlogy(x, y)` and
`xlog1py(x, y)` return 0 whatever `log` and `log1p` return at `y`; for every
other pair the results are `x * log(y)` and `x * log1p(y)`. -/
theorem xlogy_xlog1py_policy {D : Type} [BEq D] [Zero D] [Mul D] (owl_isnan : D → Bool)
    (log log1p : D → D) (x y : D) :
    ((x == 0) = true → owl_isnan y = false →
        xlogy owl_isnan log x y = 0 ∧ xlog1py owl_isnan log1p x y = 0) ∧
      (¬ ((x == 0) = true ∧ owl_isnan y = false) →
        xlogy owl_isnan log x y = x * log y ∧
          xlog1py owl_isnan log1p x y = x * log1p y) := by
  constructor
  · intro hx hy
    simp [xlogy, xlog1py, hx, hy]
  · intro h
    have hc : ¬ ((x == 0 && !owl_isnan y) = true) := by
      intro hc
      rw [Bool.and_eq_true, Bool.not_eq_true'] at hc
      exact h hc
    exact ⟨if_neg hc, if_neg hc⟩

theorem xlogy_xlog1py_policy_witness :
    (((0 : ℝ) == 0) = true ∧ (fun _ : ℝ => false) (-1) = false ∧
        xlogy (fun _ : ℝ => false) Real.log 0 (-1) = 0 ∧
        xlog1py (fun _ : ℝ => false) (fun t => Real.log (1 + t)) 0 (-1) = 0) ∧
      (¬ (((2 : ℝ) == 0) = true ∧ (fun _ : ℝ => false) 3 = false) ∧
        xlogy (fun _ : ℝ => false) Real.log 2 3 = 2 * Real.log 3 ∧
        xlog1py (fun _ : ℝ => false) (fun t => Real.log (1 + t)) 2 3
          = 2 * Real.log (1 + 3)) := by
  have h0 : ((0 : ℝ) == 0) = true := by simp
  have h2 : ¬ (((2 : ℝ) == 0) = true ∧ (fun _ : ℝ => false) 3 = false) := by simp
  have t0 := (xlogy_xlog1py_policy (fun _ : ℝ => false) Real.log
    (fun t => Real.log (1 + t)) 0 (-1)).1 h0 rfl
  have t2 := (xlogy_xlog1py_policy (fun _ : ℝ => false) Real.log
    (fun t => Real.log (1 + t)) 2 3).2 h2
  exact ⟨⟨h0, rfl, t0.1, t0.2⟩, h2, t2.1, t2.2⟩

/-- C8: `sinc(x)` is 1 when `x == 0` holds, as it does at `x = 0`, and for
every other `x` it is the quotient `sin(x) / x`, with no further special
case. -/
theorem sinc_cases {D : Type} [BEq D] [Zero D] [One D] [Div D] (sin : D → D) (x : D) :
    ((x == 0) = true → sinc sin x = 1) ∧ ((x == 0) = false → sinc sin x = sin x / x) := by
  constructor
  · intro h
    exact if_pos h
  · intro h
    exact if_neg (by rw [h]; exact Bool.false_ne_true)

theorem sinc_cases_witness :
    (((0 : ℝ) == 0) = true ∧ sinc Real.sin 0 = 1) ∧
      (((1 : ℝ) == 0) = false ∧ sinc Real.sin 1 = Real.sin 1 / 1) := by
  have h0 : ((0 : ℝ) == 0) = true := by simp
  have h1 : ((1 : ℝ) == 0) = false := by simp
  exact ⟨⟨h0, (sinc_cases Real.sin 0).1 h0⟩, h1, (sinc_cases Real.sin 1).2 h1⟩

/-- C9: in exact real arithmetic `expit(logit(p)) = p` for every `p` with
`0 < p < 1`. -/
theorem expit_logit (p : ℝ) (h0 : 0 < p) (h1 : p < 1) :
    expit Real.exp (logit Real.log p) = p := by
  have hq : 0 < 1 - p := by linarith
  have hpos : 0 < p / (1 - p) := div_pos h0 hq
  unfold expit logit
  rw [Real.exp_neg, Real.exp_log hpos]
  field_simp

theorem expit_logit_witness :
    (0 : ℝ) < 3 / 10 ∧ (3 / 10 : ℝ) < 1 ∧
      expit Real.exp (logit Real.log (3 / 10)) = 3 / 10 :=
  ⟨by norm_num, by norm_num, expit_logit (3 / 10) (by norm_num) (by norm_num)⟩

/-! ## The slow path, pass by pass -/

/-- The loop of `mulmod` returns the accumulator of the state it has reached
when `b` is 0 there, and has run out of passes otherwise. -/
theorem mulmodLoop_eq_slowState (m : Int) :
    ∀ (k : Nat) (a b r : Int), mulmodLoop k a b m r =
      if (slowState m k a b r).2.1 = 0 then some (slowState m k a b r).2.2 else none := by
  intro k
  induction k with
  | zero => intro a b r; rfl
  | succ n ih =>
    intro a b r
    unfold mulmodLoop slowState
    by_cases hb : b = 0
    · simp [hb]
    · rw [if_neg hb, if_neg hb]
      exact ih _ _ _

/-- Reduced `a` and `r` stay reduced along the slow path. -/
theorem slowState_reduced (m : Int) (hm0 : 0 < m) (hm : m ≤ INT64_MAX) :
    ∀ (k : Nat) (a b r : Int), 0 ≤ a → a < m → 0 ≤ r → r < m →
      (0 ≤ (slowState m k a b r).1 ∧ (slowState m k a b r).1 < m) ∧
        (0 ≤ (slowState m k a b r).2.2 ∧ (slowState m k a b r).2.2 < m) := by
  intro k
  induction k with
  | zero => intro a b r ha0 ha hr0 hr; exact ⟨⟨ha0, ha⟩, hr0, hr⟩
  | succ n ih =>
    intro a b r ha0 ha hr0 hr
    unfold slowState
    by_cases hb : b = 0
    · rw [if_pos hb]
      exact ⟨⟨ha0, ha⟩, hr0, hr⟩
    · rw [if_neg hb, addStep_eq a b m r hm ha0 ha hr0 hr, doubleStep_eq a m hm ha0 ha]
      exact ih _ _ _ (Int.emod_nonneg _ (ne_of_gt hm0)) (Int.emod_lt_of_pos _ hm0)
        (Int.emod_nonneg _ (ne_of_gt hm0)) (Int.emod_lt_of_pos _ hm0)

/-- From reduced `a` and `r` no addition or subtraction of a pass leaves the
signed 64-bit range. -/
theorem slowOps_inRange (a b m r : Int) (hm : m ≤ INT64_MAX) (ha0 : 0 ≤ a) (ha : a < m)
    (hr0 : 0 ≤ r) (hr : r < m) :
    ∀ v ∈ slowOps a b m r, INT64_MIN ≤ v ∧ v ≤ INT64_MAX := by
  unfold INT64_MAX at hm
  have e1 : wrap64 (m - r) = m - r :=
    wrap64_of_inRange _ (by unfold INT64_MIN; omega) (by unfold INT64_MAX; omega)
  have e2 : wrap64 (a - m) = a - m :=
    wrap64_of_inRange _ (by unfold INT64_MIN; omega) (by unfold INT64_MAX; omega)
  have e3 : wrap64 (m - a) = m - a :=
    wrap64_of_inRange _ (by unfold INT64_MIN; omega) (by unfold INT64_MAX; omega)
  intro v hv
  unfold slowOps at hv
  rw [e1, e2, e3] at hv
  unfold INT64_MIN INT64_MAX
  rcases List.mem_append.mp hv with h | h
  · split at h
    · rcases List.mem_cons.mp h with h | h
      · omega
      · split at h
        · simp only [List.mem_singleton] at h
          omega
        · simp only [List.mem_cons, List.mem_singleton, List.not_mem_nil, or_false] at h
          omega
    · exact absurd h (List.not_mem_nil v)
  · rcases List.mem_cons.mp h with h | h
    · omega
    · split at h
      · simp only [List.mem_singleton] at h
        omega
      · simp only [List.mem_cons, List.mem_singleton, List.not_mem_nil, or_false] at h
        omega

/-! ## Modular arithmetic: behaviour -/

/-- C13: for `0 < m ≤ INT64_MAX` and reduced operands `0 < a < m`, `0 < b < m`,
at the start of the double-and-add loop and after each of its passes the
doubling value `a` and the accumulator `r` lie in `[0, m)`, and every addition
and subtraction of the next pass has its exact value in the signed 64-bit
range; the loop of `mulmod` runs through exactly these states. -/
theorem slow_path_invariant (a b m : Int) (hm0 : 0 < m) (hm : m ≤ INT64_MAX)
    (ha0 : 0 < a) (ha : a < m) (_hb0 : 0 < b) (_hb : b < m) (k : Nat) :
    (0 ≤ (slowState m k a b 0).1 ∧ (slowState m k a b 0).1 < m) ∧
      (0 ≤ (slowState m k a b 0).2.2 ∧ (slowState m k a b 0).2.2 < m) ∧
      (∀ v ∈ slowOps (slowState m k a b 0).1 (slowState m k a b 0).2.1 m
          (slowState m k a b 0).2.2, INT64_MIN ≤ v ∧ v ≤ INT64_MAX) ∧
      mulmodLoop k a b m 0 =
        if (slowState m k a b 0).2.1 = 0 then some (slowState m k a b 0).2.2 else none := by
  have h := slowState_reduced m hm0 hm k a b 0 (le_of_lt ha0) ha (le_refl 0) hm0
  exact ⟨h.1, h.2, slowOps_inRange _ _ m _ hm h.1.1 h.1.2 h.2.1 h.2.2,
    mulmodLoop_eq_slowState m k a b 0⟩

theorem slow_path_invariant_witness :
    (0 : Int) < 7 ∧ (7 : Int) ≤ INT64_MAX ∧ (0 : Int) < 3 ∧ (3 : Int) < 7 ∧ (0 : Int) < 5 ∧
      (5 : Int) < 7 ∧
      ((0 ≤ (slowState 7 2 3 5 0).1 ∧ (slowState 7 2 3 5 0).1 < 7) ∧
        (0 ≤ (slowState 7 2 3 5 0).2.2 ∧ (slowState 7 2 3 5 0).2.2 < 7) ∧
        (∀ v ∈ slowOps (slowState 7 2 3 5 0).1 (slowState 7 2 3 5 0).2.1 7
            (slowState 7 2 3 5 0).2.2, INT64_MIN ≤ v ∧ v ≤ INT64_MAX) ∧
        mulmodLoop 2 3 5 7 0 =
          if (slowState 7 2 3 5 0).2.1 = 0 then some (slowState 7 2 3 5 0).2.2 else none) :=
  ⟨by decide, by decide, by decide, by decide, by decide, by decide,
    slow_path_invariant 3 5 7 (by decide) (by decide) (by decide) (by decide) (by decide)
      (by decide) 2⟩

/-- C15: the overflow test of `mulmod` is conservative: at `a = 2`,
`b = 4611686018427387903`, `m = INT64_MAX` the operands are reduced and
positive, the exact product is at most `INT64_MAX`, and yet the test
`b < INT64_MAX / a` fails and `mulmod` runs its slow path. -/
theorem fastPath_conservative :
    (0 : Int) < 2 ∧ (2 : Int) < INT64_MAX ∧ (0 : Int) < 4611686018427387903 ∧
      (4611686018427387903 : Int) < INT64_MAX ∧ INT64_MAX ≤ INT64_MAX ∧
      (2 : Int) * 4611686018427387903 ≤ INT64_MAX ∧
      fastPathCheck 2 4611686018427387903 = false ∧
      ∀ fuel : Nat, mulmod fuel 2 4611686018427387903 INT64_MAX
        = mulmodLoop fuel 2 4611686018427387903 INT64_MAX 0 := by
  refine ⟨by decide, by decide, by decide, by decide, by decide, by decide, by decide, ?_⟩
  intro fuel
  unfold mulmod
  simp only [ge_iff_le, if_neg (show ¬ (INT64_MAX ≤ 2) by decide),
    if_neg (show ¬ (INT64_MAX ≤ 4611686018427387903) by decide)]
  rw [if_neg (by decide), if_neg (by decide)]

/-- C16: for `0 < m ≤ INT64_MAX`, `a ≥ 0` and `0 ≤ b ≤ INT64_MAX`, `mulmod` and
`powmod` return when each loop is allowed 63 passes, and the shift `b >> 1`
of a pass takes a positive `b` to a smaller non-negative value. -/
theorem mulmod_powmod_terminate (a b m : Int) (hm0 : 0 < m) (hm : m ≤ INT64_MAX)
    (ha : 0 ≤ a) (hb0 : 0 ≤ b) (hb : b ≤ INT64_MAX) :
    (∃ v : Int, mulmod 63 a b m = some v) ∧ (∃ v : Int, powmod 63 a b m = some v) ∧
      ∀ c : Int, 0 < c → 0 ≤ c >>> (1 : Nat) ∧ c >>> (1 : Nat) < c := by
  refine ⟨⟨_, mulmod_eq 63 a b m (le_refl 63) hm0 hm ha hb0⟩,
    ⟨_, powmod_eq 63 a b m (le_refl 63) hm0 hm ha hb0 hb⟩, ?_⟩
  intro c hc
  rw [shiftRight_one]
  omega

theorem mulmod_powmod_terminate_witness :
    (0 : Int) < 1000 ∧ (1000 : Int) ≤ INT64_MAX ∧ (0 : Int) ≤ 2 ∧ (0 : Int) ≤ 10 ∧
      (10 : Int) ≤ INT64_MAX ∧
      ((∃ v : Int, mulmod 63 2 10 1000 = some v) ∧ (∃ v : Int, powmod 63 2 10 1000 = some v) ∧
        ∀ c : Int, 0 < c → 0 ≤ c >>> (1 : Nat) ∧ c >>> (1 : Nat) < c) :=
  ⟨by decide, by decide, by decide, by decide, by decide,
    mulmod_powmod_terminate 2 10 1000 (by decide) (by decide) (by decide) (by decide)
      (by decide)⟩

/-- C17: for `0 < m ≤ INT64_MAX` and `a, b ≥ 0`, `mulmod(a, b, m)` and
`mulmod(b, a, m)` return the same value. -/
theorem mulmod_comm (a b m : Int) (hm0 : 0 < m) (hm : m ≤ INT64_MAX) (ha : 0 ≤ a)
    (hb : 0 ≤ b) (fuel : Nat) (hfuel : 63 ≤ fuel) :
    ∃ v : Int, mulmod fuel a b m = some v ∧ mulmod fuel b a m = some v := by
  refine ⟨a * b % m, mulmod_eq fuel a b m hfuel hm0 hm ha hb, ?_⟩
  rw [mulmod_eq fuel b a m hfuel hm0 hm hb ha, mul_comm]

theorem mulmod_comm_witness :
    (0 : Int) < INT64_MAX ∧ INT64_MAX ≤ INT64_MAX ∧ (0 : Int) ≤ 2 ∧
      (0 : Int) ≤ 4611686018427387903 ∧ 63 ≤ 63 ∧
      ∃ v : Int, mulmod 63 2 4611686018427387903 INT64_MAX = some v ∧
        mulmod 63 4611686018427387903 2 INT64_MAX = some v :=
  ⟨by decide, by decide, by decide, by decide, by decide,
    mulmod_comm 2 4611686018427387903 INT64_MAX (by decide) (by decide) (by decide)
      (by decide) 63 (by decide)⟩

/-- C19: `mulmod` does not normalise a negative multiplicand: with `m = 5 > 0`,
`b = 1 ≥ 0` and `a = -1 < 0` it returns `-1`, which is negative, and not the
residue 4 of `a * b` in `[0, m)`. -/
theorem mulmod_negative_multiplicand :
    (0 : Int) < 5 ∧ (0 : Int) ≤ 1 ∧ (-1 : Int) < 0 ∧
      (∀ n : Nat, mulmod (n + 1) (-1) 1 5 = some (-1)) ∧ ((-1 : Int) * 1) % 5 = 4 := by
  refine ⟨by decide, by decide, by decide, ?_, by decide⟩
  intro n
  unfold mulmod
  simp only [ge_iff_le, if_neg (show ¬ ((5 : Int) ≤ -1) by decide),
    if_neg (show ¬ ((5 : Int) ≤ 1) by decide)]
  rw [if_neg (by decide), if_neg (by decide)]
  unfold mulmodLoop
  rw [if_neg (by decide)]
  have hs : (1 : Int) >>> (1 : Nat) = 0 := by decide
  have ha : addStep (-1) 1 5 0 = -1 := by decide
  rw [hs, ha]
  cases n <;> simp [mulmodLoop]

/-! ## The standard normal quantile -/

section Quantile
open MeasureTheory ProbabilityTheory Set

theorem gaussian_singleton (x : ℝ) : gaussianReal 0 1 {x} = 0 :=
  gaussianReal_absolutelyContinuous 0 one_ne_zero Real.volume_singleton

theorem stdNormalCDF_continuous : Continuous stdNormalCDF := by
  rw [continuous_iff_continuousAt]
  intro x
  have hmono : Monotone (cdf (gaussianReal 0 1)) := monotone_cdf _
  show ContinuousAt (cdf (gaussianReal 0 1)) x
  rw [hmono.continuousAt_iff_leftLim_eq_rightLim, StieltjesFunction.rightLim_eq]
  have h1 := StieltjesFunction.measure_singleton (cdf (gaussianReal 0 1)) x
  rw [measure_cdf, gaussian_singleton] at h1
  have h2 : cdf (gaussianReal 0 1) x - Function.leftLim (cdf (gaussianReal 0 1)) x ≤ 0 :=
    ENNReal.ofReal_eq_zero.mp h1.symm
  have h3 := hmono.leftLim_le (le_refl x)
  linarith

theorem stdNormalCDF_strictMono : StrictMono stdNormalCDF := by
  intro a b hab
  have h1 := StieltjesFunction.measure_Ioc (cdf (gaussianReal 0 1)) a b
  rw [measure_cdf] at h1
  have h2 : gaussianReal 0 1 (Ioc a b) ≠ 0 := by
    intro h
    have h3 := gaussianReal_absolutelyContinuous' 0 one_ne_zero h
    rw [Real.volume_Ioc, ENNReal.ofReal_eq_zero] at h3
    linarith
  rw [h1] at h2
  have h4 : ¬ (cdf (gaussianReal 0 1) b - cdf (gaussianReal 0 1) a ≤ 0) :=
    fun h => h2 (ENNReal.ofReal_eq_zero.mpr h)
  show cdf (gaussianReal 0 1) a < cdf (gaussianReal 0 1) b
  linarith

theorem gaussian_map_neg : (gaussianReal 0 1).map (fun y : ℝ => -y) = gaussianReal 0 1 := by
  have h := gaussianReal_map_const_mul (μ := 0) (v := 1) (-1)
  have e1 : (fun y : ℝ => -1 * y) = fun y : ℝ => -y := by
    funext y; ring
  have e2 : (⟨(-1 : ℝ) ^ 2, sq_nonneg _⟩ : NNReal) * 1 = 1 := by
    ext; simp
  rw [e1, e2, mul_zero] at h
  exact h

theorem stdNormalCDF_neg (x : ℝ) : stdNormalCDF (-x) = 1 - stdNormalCDF x := by
  haveI : NoAtoms (gaussianReal 0 1) := ⟨gaussian_singleton⟩
  unfold stdNormalCDF
  rw [cdf_eq_toReal, cdf_eq_toReal]
  have h1 : gaussianReal 0 1 (Iic (-x)) = gaussianReal 0 1 (Ici x) := by
    conv_lhs => rw [← gaussian_map_neg]
    rw [Measure.map_apply measurable_neg measurableSet_Iic]
    congr 1
    ext y
    simp
  have h2 : gaussianReal 0 1 (Ici x) = gaussianReal 0 1 (Ioi x) :=
    (measure_congr Ioi_ae_eq_Ici).symm
  have h3 : gaussianReal 0 1 (Ioi x) = 1 - gaussianReal 0 1 (Iic x) := by
    rw [← compl_Iic]
    exact prob_compl_eq_one_sub measurableSet_Iic
  rw [h1, h2, h3, ENNReal.toReal_sub_of_le prob_le_one ENNReal.one_ne_top, ENNReal.one_toReal]

theorem stdNormalCDF_surj (p : ℝ) (h0 : 0 < p) (h1 : p < 1) : ∃ y, stdNormalCDF y = p := by
  have hb : ∃ a, stdNormalCDF a ≤ p :=
    (((tendsto_cdf_atBot (gaussianReal 0 1)).eventually (gt_mem_nhds h0)).exists).imp
      fun _ h => le_of_lt h
  have ht : ∃ b, p ≤ stdNormalCDF b :=
    (((tendsto_cdf_atTop (gaussianReal 0 1)).eventually (lt_mem_nhds h1)).exists).imp
      fun _ h => le_of_lt h
  exact mem_range_of_exists_le_of_exists_ge stdNormalCDF_continuous hb ht

theorem ndtri_one_sub (p : ℝ) (h0 : 0 < p) (h1 : p < 1) : ndtri (1 - p) = -ndtri p := by
  have hp : stdNormalCDF (ndtri p) = p := Function.invFun_eq (stdNormalCDF_surj p h0 h1)
  have hn : stdNormalCDF (-ndtri p) = 1 - p := by rw [stdNormalCDF_neg, hp]
  rw [← hn]
  exact Function.leftInverse_invFun stdNormalCDF_strictMono.injective _

end Quantile

/-! ## Double-precision functions: exact arithmetic and branches -/

theorem sub_log_one_add_nonneg (t : ℝ) (ht : 0 < t) : 0 ≤ t - Real.log (1 + t) := by
  have h := Real.log_le_sub_one_of_pos (show 0 < 1 + t by linarith)
  linarith

theorem sub_log_one_add_le_sq (t : ℝ) (ht : 0 < t) : t - Real.log (1 + t) ≤ t * t := by
  have hpos : 0 < 1 + t := by linarith
  have h := Real.one_sub_inv_le_log_of_pos hpos
  have e : t - (1 - (1 + t)⁻¹) = t * t * (1 + t)⁻¹ := by
    field_simp
    ring
  have hle : t * t * (1 + t)⁻¹ ≤ t * t := by
    have hinv : (1 + t)⁻¹ ≤ 1 := inv_le_one_of_one_le₀ (by linarith)
    have htt : 0 ≤ t * t := mul_self_nonneg t
    calc t * t * (1 + t)⁻¹ ≤ t * t * 1 := mul_le_mul_of_nonneg_left hinv htt
      _ = t * t := mul_one _
  linarith

theorem log_one_add_exp (x : ℝ) :
    Real.log (1 + Real.exp x) = x + Real.log (1 + Real.exp (-x)) := by
  have h1 : 1 + Real.exp x = Real.exp x * (1 + Real.exp (-x)) := by
    rw [mul_add, mul_one, ← Real.exp_add, add_neg_cancel, Real.exp_zero, add_comm]
  have hpos : 0 < 1 + Real.exp (-x) := by
    have := Real.exp_pos (-x)
    linarith
  rw [h1, Real.log_mul (ne_of_gt (Real.exp_pos x)) (ne_of_gt hpos), Real.log_exp]

/-- C11: in exact real arithmetic, with `log1p(y)` read as `log(1 + y)` and
`expm1(x)` as `exp(x) - 1`, `log1mexp(x)` equals `log(1 - exp(x))` for every
`x ≤ 0`, on either branch. -/
theorem log1mexp_exact (x : ℝ) (_hx : x ≤ 0) :
    log1mexp (Real.log 2) Real.exp Real.log (fun y => Real.log (1 + y))
      (fun t => Real.exp t - 1) x = Real.log (1 - Real.exp x) := by
  unfold log1mexp
  split
  · show Real.log (1 + -Real.exp x) = Real.log (1 - Real.exp x)
    rw [← sub_eq_add_neg]
  · show Real.log (-(Real.exp x - 1)) = Real.log (1 - Real.exp x)
    rw [neg_sub]

theorem log1mexp_exact_witness :
    (-50 : ℝ) ≤ 0 ∧
      log1mexp (Real.log 2) Real.exp Real.log (fun y => Real.log (1 + y))
        (fun t => Real.exp t - 1) (-50) = Real.log (1 - Real.exp (-50)) :=
  ⟨by norm_num, log1mexp_exact (-50) (by norm_num)⟩

/-- C12: with `ndtri` the standard normal quantile function,
`erfcinv(x) = erfinv(1 - x)` for every `x` with `0 < x < 2`. -/
theorem erfcinv_eq_erfinv (x : ℝ) (h0 : 0 < x) (h2 : x < 2) :
    erfcinv ndtri Real.sqrt x = erfinv ndtri Real.sqrt (1 - x) := by
  unfold erfcinv erfinv
  have e : (1 - x + 1) / 2 = 1 - 0.5 * x := by norm_num; ring
  rw [e, ndtri_one_sub (0.5 * x) (by norm_num; linarith) (by norm_num; linarith)]

theorem erfcinv_eq_erfinv_witness :
    (0 : ℝ) < 2 / 5 ∧ (2 / 5 : ℝ) < 2 ∧
      erfcinv ndtri Real.sqrt (2 / 5) = erfinv ndtri Real.sqrt (1 - 2 / 5) :=
  ⟨by norm_num, by norm_num, erfcinv_eq_erfinv (2 / 5) (by norm_num) (by norm_num)⟩

/-- C14, as stated, fails: the branches are the other way round. With
primitives that tell the two formulas apart (`log` constantly 0, `log1p`
constantly 1) and the threshold `693147 / 1000000`, at `x = 0`, where `-x`
does not exceed the threshold, the result is not `log1p(-exp(x))`, and at
`x = -1`, where `-x` exceeds it, the result is not `log(-expm1(x))`. -/
theorem log1mexp_not_as_described :
    (¬ (-(0 : ℚ) > 693147 / 1000000) ∧
        log1mexp (693147 / 1000000 : ℚ) (fun t => t) (fun _ => 0) (fun _ => 1) (fun t => t) 0
          ≠ (fun _ : ℚ => (1 : ℚ)) (-(fun t : ℚ => t) 0)) ∧
      (-(-1 : ℚ) > 693147 / 1000000 ∧
        log1mexp (693147 / 1000000 : ℚ) (fun t => t) (fun _ => 0) (fun _ => 1) (fun t => t) (-1)
          ≠ (fun _ : ℚ => (0 : ℚ)) (-(fun t : ℚ => t) (-1))) := by
  refine ⟨⟨by norm_num, ?_⟩, by norm_num, ?_⟩
  · norm_num [log1mexp]
  · norm_num [log1mexp]

/-- C14, amended: `log1mexp(x)` computes `log1p(-exp(x))` when `-x` exceeds
`log 2` (`x` very negative) and `log(-expm1(x))` when `-x` does not exceed
`log 2` (`x` near 0), whatever the primitives are. -/
theorem log1mexp_branches {D : Type} [Neg D] [LT D] [DecidableRel (fun a b : D => a < b)]
    (OWL_LOGE2 : D) (exp log log1p expm1 : D → D) (x : D) :
    (-x > OWL_LOGE2 → log1mexp OWL_LOGE2 exp log log1p expm1 x = log1p (-exp x)) ∧
      (¬ (-x > OWL_LOGE2) → log1mexp OWL_LOGE2 exp log log1p expm1 x = log (-expm1 x)) :=
  ⟨fun h => if_pos h, fun h => if_neg h⟩

theorem log1mexp_branches_witness :
    (-(-1 : ℝ) > Real.log 2 ∧
        log1mexp (Real.log 2) Real.exp Real.log (fun y => Real.log (1 + y))
          (fun t => Real.exp t - 1) (-1) = (fun y => Real.log (1 + y)) (-Real.exp (-1))) ∧
      (¬ (-(0 : ℝ) > Real.log 2) ∧
        log1mexp (Real.log 2) Real.exp Real.log (fun y => Real.log (1 + y))
          (fun t => Real.exp t - 1) 0 = Real.log (-(fun t => Real.exp t - 1) 0)) := by
  have h1 : -(-1 : ℝ) > Real.log 2 := by
    have := Real.log_two_lt_d9
    norm_num at this ⊢
    linarith
  have h0 : ¬ (-(0 : ℝ) > Real.log 2) := by
    have := Real.log_pos (show (1 : ℝ) < 2 by norm_num)
    rw [neg_zero]
    exact not_lt.mpr (le_of_lt this)
  exact ⟨⟨h1, (log1mexp_branches (Real.log 2) Real.exp Real.log (fun y => Real.log (1 + y))
      (fun t => Real.exp t - 1) (-1)).1 h1⟩,
    h0, (log1mexp_branches (Real.log 2) Real.exp Real.log (fun y => Real.log (1 + y))
      (fun t => Real.exp t - 1) 0).2 h0⟩

/-- C18: in exact real arithmetic `log1pexp(x)` is within `exp(-33.3)` of
`log(1 + exp(x))` for every real `x`, and equal to it for `-37 < x ≤ 18`. -/
theorem log1pexp_approx (x : ℝ) :
    |log1pexp Real.exp (fun y => Real.log (1 + y)) x - Real.log (1 + Real.exp x)|
        ≤ Real.exp (-33.3) ∧
      (-37 < x → x ≤ 18 →
        log1pexp Real.exp (fun y => Real.log (1 + y)) x = Real.log (1 + Real.exp x)) := by
  have e37 : (-37.0 : ℝ) = -37 := by norm_num
  have e18 : (18.0 : ℝ) = 18 := by norm_num
  have hE : 0 < Real.exp (-33.3) := Real.exp_pos _
  unfold log1pexp
  rw [e37, e18]
  by_cases c1 : x ≤ -37
  · rw [if_pos c1]
    refine ⟨?_, fun h => absurd c1 (not_le.mpr h)⟩
    have ht := Real.exp_pos x
    have hlo := sub_log_one_add_nonneg (Real.exp x) ht
    have hlog : 0 ≤ Real.log (1 + Real.exp x) := Real.log_nonneg (by linarith)
    have hmono : Real.exp x ≤ Real.exp (-33.3) :=
      Real.exp_le_exp.mpr (by norm_num; linarith)
    rw [abs_of_nonneg hlo]
    linarith
  · rw [if_neg c1]
    by_cases c2 : x ≤ 18
    · rw [if_pos c2]
      refine ⟨?_, fun _ _ => rfl⟩
      rw [sub_self, abs_zero]
      exact le_of_lt hE
    · rw [if_neg c2]
      refine ⟨?_, fun _ h => absurd h c2⟩
      have ht := Real.exp_pos (-x)
      by_cases c3 : x ≤ 33.3
      · rw [if_pos c3, log_one_add_exp x]
        have hlo := sub_log_one_add_nonneg (Real.exp (-x)) ht
        have hhi := sub_log_one_add_le_sq (Real.exp (-x)) ht
        have hsq : Real.exp (-x) * Real.exp (-x) ≤ Real.exp (-33.3) := by
          rw [← Real.exp_add]
          exact Real.exp_le_exp.mpr (by norm_num; linarith)
        have e : x + Real.exp (-x) - (x + Real.log (1 + Real.exp (-x)))
            = Real.exp (-x) - Real.log (1 + Real.exp (-x)) := by ring
        rw [e, abs_of_nonneg hlo]
        linarith
      · rw [if_neg c3, log_one_add_exp x]
        have hlog : 0 ≤ Real.log (1 + Real.exp (-x)) := Real.log_nonneg (by linarith)
        have hlo := sub_log_one_add_nonneg (Real.exp (-x)) ht
        have hmono : Real.exp (-x) ≤ Real.exp (-33.3) :=
          Real.exp_le_exp.mpr (by norm_num at c3 ⊢; linarith)
        have e : x - (x + Real.log (1 + Real.exp (-x)))
            = -Real.log (1 + Real.exp (-x)) := by ring
        rw [e, abs_neg, abs_of_nonneg hlog]
        linarith

theorem log1pexp_approx_witness :
    (-37 : ℝ) < 10 ∧ (10 : ℝ) ≤ 18 ∧
      log1pexp Real.exp (fun y => Real.log (1 + y)) 10 = Real.log (1 + Real.exp 10) :=
  ⟨by norm_num, by norm_num, (log1pexp_approx 10).2 (by norm_num) (by norm_num)⟩

end Owl
